import Mathlib

/-!
Verification of the N9.js hexagonal-grid engine.

This file gives a shallow embedding, in Lean 4, of the integer parts of
`src/hexagons.mjs`, `src/app.mjs` and the utility module (`src/unnamed/part_000`),
and proves or refutes the frozen specification claims about them.

Modelling conventions:
* JavaScript numbers appearing in integer roles are modelled as `ℤ`.
  The `x >> 1` operator is modelled faithfully as 32-bit conversion followed by
  an arithmetic shift (`toInt32` then floor division by two).
* The float constant `Math.sqrt(3)` appearing in the fixed matrices is abstracted
  as a parameter `s3 : ℚ` (every IEEE double is a rational number); fractional
  pixel arithmetic is modelled over `ℚ`.
* The randomized `shuffled(directions)` call is modelled by an oracle
  `ℕ → List (ℤ × ℤ)` giving the direction order used by each iteration of the
  generator's while-loop; the claims assume each oracle entry is a permutation
  of `directions`, which is what `shuffled` produces.
* The auto-vivifying `defaultdict` proxy of the utility module is modelled as a
  nested association list (`Store`) threaded explicitly through every read,
  because a read of a missing key inserts the default value into the backing
  object (`target[name] = factory(name)`).
* The `generate_random_walk` generator is modelled by `tryDirs` (the inner
  `for` loop over the shuffled directions), `genIter` (one iteration of the
  `while` loop) and `genNext` (run the generator until its next `yield` or
  until it finishes); `worldLoop` is the fused consumer loop of `generateWorld`
  together with `take` from the utility module (which pulls an element first
  and only afterwards tests the decremented counter `n-- > 0`).
* Non-termination (the unbounded recursion of `wrap` on a negative radius) is
  modelled by the fuel-indexed `wrapFuel`, where `none` means the recursion has
  not finished within the given fuel.
-/

namespace N9

/-- Componentwise addition of coordinate pairs; `add` from the utility module
(`zip` plus pointwise `+`, specialized to pairs). -/
def add (a : ℤ × ℤ) (b : ℤ × ℤ) : ℤ × ℤ :=
  (a.1 + b.1, a.2 + b.2)

/-- The six axial direction vectors from `hexagons.mjs`, in source order. -/
def directions : List (ℤ × ℤ) :=
  [(0, 1), (0, -1), (-1, 1), (1, -1), (1, 0), (-1, 0)]

/-- ToInt32 conversion used by the JavaScript `>>` operator. -/
def toInt32 (x : ℤ) : ℤ :=
  (x + 2 ^ 31) % 2 ^ 32 - 2 ^ 31

/-- The JavaScript expression `x >> 1`: ToInt32 followed by an arithmetic
right shift by one, i.e. floor division by two. -/
def jsShiftRight1 (x : ℤ) : ℤ :=
  Int.fdiv (toInt32 x) 2

/-- Source `odd_q_to_axial([x, y]) = [x, y - (x >> 1)]`. -/
def odd_q_to_axial (p : ℤ × ℤ) : ℤ × ℤ :=
  (p.1, p.2 - jsShiftRight1 p.1)

/-- Source `axial_to_odd_q([x, y]) = [x, y + (x >> 1)]`. -/
def axial_to_odd_q (p : ℤ × ℤ) : ℤ × ℤ :=
  (p.1, p.2 + jsShiftRight1 p.1)

/-- Source `anticlockwise([q, r])`: with `s = -q - r`, returns `[-s, -q]`. -/
def anticlockwise (c : ℤ × ℤ) : ℤ × ℤ :=
  (-(-c.1 - c.2), -c.1)

/-- Source `rotation(qr, t) = range(t).reduce(anticlockwise, qr)`. -/
def rotation (qr : ℤ × ℤ) (t : ℕ) : ℤ × ℤ :=
  (List.range t).foldl (fun acc _ => anticlockwise acc) qr

/-- Source `distance([Aq, Ar])([Bq, Br])`: Chebyshev distance of the cube
completions, `max(|Aq-Bq|, |Ar-Br|, |As-Bs|)` with `s = -q - r`. -/
def distance (A : ℤ × ℤ) (B : ℤ × ℤ) : ℤ :=
  max |A.1 - B.1| (max |A.2 - B.2| |(-A.1 - A.2) - (-B.1 - B.2)|)

/-- Source `area(r) = 3 * r ** 2 + 3 * r + 1`. -/
def area (r : ℤ) : ℤ :=
  3 * r ^ 2 + 3 * r + 1

/-- The six candidate region centers computed inside `wrap`:
`range(6).map((t) => rotation([radius, radius + 1], t))`. -/
def centers (radius : ℤ) : List (ℤ × ℤ) :=
  (List.range 6).map (fun t => rotation (radius, radius + 1) t)

/-- The comparison `x > max[1]` of the `argmax` reducer, where the accumulator
value starts as `-Infinity` (modelled by `none`). -/
def jsGt (x : ℤ) : Option ℤ → Bool
  | none => true
  | some m => decide (m < x)

/-- The body of `argmax`'s `reduce` with its running index; the accumulator is
the pair `[index, value]`, initially `[undefined, -Infinity]`. -/
def argmaxGo : List ℤ → ℕ → Option ℕ × Option ℤ → Option ℕ × Option ℤ
  | [], _, acc => acc
  | x :: rest, i, acc =>
    argmaxGo rest (i + 1) (if jsGt x acc.2 then (some i, some x) else acc)

/-- Source `argmax(array)` from the utility module. -/
def argmax (l : List ℤ) : Option ℕ × Option ℤ :=
  argmaxGo l 0 (none, none)

/-- Source `max_by(array, key) = array[argmax(array.map(key))[0]]`; indexing an
array with `undefined` or out of range gives `undefined`, modelled as `none`. -/
def max_by {α : Type} (l : List α) (key : α → ℤ) : Option α :=
  match (argmax (l.map key)).1 with
  | none => none
  | some i => l.get? i

/-- Source `min_by(array, key) = max_by(array, (x) => -key(x))`. -/
def min_by {α : Type} (l : List α) (key : α → ℤ) : Option α :=
  max_by l (fun x => -(key x))

/-- Fuel-indexed version of the recursive closure inside `wrap(radius)`:
if the cell is within `radius` of the origin return it, otherwise subtract the
nearest of the six `centers` and recurse.  `none` means the recursion did not
finish within `fuel` steps. -/
def wrapFuel (radius : ℤ) : ℕ → ℤ × ℤ → Option (ℤ × ℤ)
  | 0, _ => none
  | fuel + 1, c =>
    if distance c (0, 0) ≤ radius then some c
    else
      match min_by (centers radius) (distance c) with
      | none => none
      | some k => wrapFuel radius fuel (c.1 - k.1, c.2 - k.2)

/-- Source `wrap(radius)(c)`.  For `radius ≥ 0` the fuel
`distance(c, origin) + 1` always suffices (proved below), so the `getD`
default is never taken on the domain the program uses. -/
def wrap (radius : ℤ) (c : ℤ × ℤ) : ℤ × ℤ :=
  (wrapFuel radius ((distance c (0, 0)).toNat + 1) c).getD c

/-- Source `axial_to_pixel([q, r], size)`: the fixed matrix
`[[3/2, 0], [sqrt(3)/2, sqrt(3)]]` applied to `(q, r)`, then scaled by `size`.
The 2x2 `matmul` is unrolled; `s3` stands for the float `Math.sqrt(3)`. -/
def axial_to_pixel (s3 : ℚ) (c : ℤ × ℤ) (size : ℚ) : ℚ × ℚ :=
  ((3 / 2 * c.1 + 0 * c.2) * size, (s3 / 2 * c.1 + s3 * c.2) * size)

/-- The rounding tail of `pixel_to_axial` (everything after the matrix
application): each rounded coordinate is `Math.round(x) | 0` — half-up
rounding followed by ToInt32 truncation — then the branch-corrected axial
pair is returned. -/
def pixel_to_axial_round (q_ r_ : ℚ) : ℤ × ℤ :=
  let s_ : ℚ := -q_ - r_
  let q : ℤ := toInt32 (round q_)
  let r : ℤ := toInt32 (round r_)
  let s : ℤ := toInt32 (round s_)
  let qDiff : ℚ := |(q : ℚ) - q_|
  let rDiff : ℚ := |(r : ℚ) - r_|
  let sDiff : ℚ := |(s : ℚ) - s_|
  if qDiff > rDiff ∧ qDiff > sDiff then (-r - s, r)
  else if rDiff > qDiff ∧ rDiff > sDiff then (q, -q - s)
  else (q, r)

/-- Source `pixel_to_axial([x, y], size)`: the fixed inverse matrix
`[[2/3, 0], [-1/3, sqrt(3)/3]]` applied to the pixel, divided by `size`,
followed by the rounding tail.  `s3` stands for the float `Math.sqrt(3)`. -/
def pixel_to_axial (s3 : ℚ) (p : ℚ × ℚ) (size : ℚ) : ℤ × ℤ :=
  pixel_to_axial_round ((2 / 3 * p.1 + 0 * p.2) / size) ((-(1 / 3) * p.1 + s3 / 3 * p.2) / size)

/-- The occupancy object built by `defaultdict((_) => defaultdict((_) => false))`:
an insertion-ordered association list from the outer key `r` to an
insertion-ordered association list from the inner key `q` to the stored flag. -/
abbrev Store : Type :=
  List (ℤ × List (ℤ × Bool))

/-- Plain association-list lookup (the `name in target` test plus read). -/
def alookup {α : Type} : List (ℤ × α) → ℤ → Option α
  | [], _ => none
  | (k, v) :: rest, q => if k = q then some v else alookup rest q

/-- The proxy `get` handler of `defaultdict(factory)` with a constant factory:
a hit returns the stored value, a miss stores and returns the default
(auto-vivification: `target[name] = factory(name)`). -/
def dget {α : Type} (dflt : α) (l : List (ℤ × α)) (k : ℤ) : α × List (ℤ × α) :=
  match alookup l k with
  | some v => (v, l)
  | none => (dflt, l ++ [(k, dflt)])

/-- The default JavaScript property write (the proxies install no `set`
handler): overwrite the entry in place if the key is present, else append it. -/
def jsSet {α : Type} : List (ℤ × α) → ℤ → α → List (ℤ × α)
  | [], k, v => [(k, v)]
  | (k2, v2) :: rest, k, v =>
    if k2 = k then (k, v) :: rest else (k2, v2) :: jsSet rest k v

/-- The JavaScript read `cells[r][q]`: both proxy reads may vivify entries, and
the (possibly updated) inner object is the one stored under `r`.  The outer
default is a fresh empty inner `defaultdict`, the inner default is `false`. -/
def cellsGet (s : Store) (r q : ℤ) : Bool × Store :=
  let pr := dget [] s r
  let pq := dget false pr.1 q
  (pq.1, jsSet pr.2 r pq.2)

/-- The JavaScript write `cells[r][q] = b`: the outer proxy read `cells[r]`
(vivifying if needed) followed by a plain write on the inner object. -/
def cellsSet (s : Store) (r q : ℤ) (b : Bool) : Store :=
  let pr := dget [] s r
  jsSet pr.2 r (jsSet pr.1 q b)

/-- The value an unmutated observer would see at `cells[r][q]`: the stored flag
if present, else the default `false`. -/
def cellsLookup (s : Store) (r q : ℤ) : Bool :=
  (alookup ((alookup s r).getD []) q).getD false

/-- Two stores are observationally equal: every cell reads the same flag. -/
def lookupsEq (s t : Store) : Prop :=
  ∀ r q : ℤ, cellsLookup s r q = cellsLookup t r q

/-- The inner `for (const direction of shuffled(directions))` loop of
`generate_random_walk`, for one fixed direction order `dirs`: return the first
wrapped neighbor of `at` whose cell reads `false`, threading the occupancy
store through each (possibly vivifying) read. -/
def tryDirs (radius : ℤ) (at_ : ℤ × ℤ) : List (ℤ × ℤ) → Store → Option (ℤ × ℤ) × Store
  | [], s => (none, s)
  | d :: rest, s =>
    let c := wrap radius (add at_ d)
    let p := cellsGet s c.2 c.1
    if p.1 = false then (some c, p.2) else tryDirs radius at_ rest p.2

/-- Result of one iteration of the generator's `while` loop (with the stack
nonempty, `stack = top :: rest`): either a cell is yielded after being pushed,
or nothing was free and `at = stack.pop()` backtracks. -/
inductive IterResult : Type
  | yield : ℤ × ℤ → List (ℤ × ℤ) → IterResult
  | pop : ℤ × ℤ → List (ℤ × ℤ) → IterResult
deriving DecidableEq

/-- One iteration of the `while` loop of `generate_random_walk` with direction
order `dirs` and stack `top :: rest` (the list head is the array's top).
On a yield, the new stack is the old one with the emitted cell pushed and the
emitted cell becomes `at`; on a dead end the popped top becomes `at`. -/
def genIter (radius : ℤ) (dirs : List (ℤ × ℤ)) (at_ top : ℤ × ℤ) (rest : List (ℤ × ℤ))
    (s : Store) : IterResult × Store :=
  match tryDirs radius at_ dirs s with
  | (some c, s1) => (IterResult.yield c (c :: top :: rest), s1)
  | (none, s1) => (IterResult.pop top rest, s1)

/-- Run `generate_random_walk` from its saved state until the next `yield` or
until the `while` loop exits.  `oracle k` is the result of the `k`-th call of
`shuffled(directions)`; `k` counts the while-iterations performed so far.
Returns the emitted cell with the new stack (the emitted cell is also the new
`at`), the new iteration count, and the store after all reads.  Equivalent to
iterating `genIter` (see `genNext_iter`); written with `tryDirs` inlined so
that the recursion is structurally decreasing on the stack. -/
def genNext (radius : ℤ) (oracle : ℕ → List (ℤ × ℤ)) :
    ℤ × ℤ → List (ℤ × ℤ) → ℕ → Store → Option ((ℤ × ℤ) × List (ℤ × ℤ)) × ℕ × Store
  | _, [], k, s => (none, k, s)
  | at_, top :: rest, k, s =>
    match tryDirs radius at_ (oracle k) s with
    | (some c, s1) => (some (c, c :: top :: rest), k + 1, s1)
    | (none, s1) => genNext radius oracle top rest (k + 1) s1

/-- The fused consumer loop of `generateWorld`:
`for (const [q, r] of take(generate_random_walk([0,0], cells, radius), steps)) cells[r][q] = true`.
`take`'s predicate `n-- > 0` is tested only after an element has already been
pulled from the generator, so the store effects of the final discarded pull are
kept.  `n` is the remaining (fractional) budget. -/
def worldLoop (radius : ℤ) (oracle : ℕ → List (ℤ × ℤ)) (n : ℚ) (at_ : ℤ × ℤ)
    (stack : List (ℤ × ℤ)) (k : ℕ) (s : Store) : Store :=
  match genNext radius oracle at_ stack k s with
  | (none, _, s1) => s1
  | (some (c, stk), k1, s1) =>
    if h : 0 < n then worldLoop radius oracle (n - 1) c stk k1 (cellsSet s1 c.2 c.1 true)
    else s1
termination_by (⌈n⌉).toNat
decreasing_by
  have h1 : 0 < ⌈n⌉ := Int.ceil_pos.mpr h
  have h2 : ⌈n - (1 : ℚ)⌉ = ⌈n⌉ - 1 := by
    have h3 := Int.ceil_sub_int n (1 : ℤ)
    push_cast at h3
    exact h3
  omega

/-- Source `generateWorld(radius)`: budget `0.4 * area(radius)` (the float
literal `0.4` is the rational `2/5` up to a relative error below `2⁻⁵²`, which
never affects the comparisons `n - k > 0` because `2/5 * area(radius)` is never
within `1/5` of an integer), walk seeded at the origin with stack `[at]`,
occupancy map initially empty. -/
def generateWorld (radius : ℤ) (oracle : ℕ → List (ℤ × ℤ)) : Store :=
  worldLoop radius oracle (2 / 5 * (area radius : ℚ)) (0, 0) [(0, 0)] 0 []

/-- Reachability from the seed through open cells: the seed `(0,0)` is reached,
and any cell read as open that is one wrapped direction step away from a
reached cell is reached. -/
inductive Reach (radius : ℤ) (s : Store) : ℤ × ℤ → Prop
  | seed : Reach radius s (0, 0)
  | step (a b d : ℤ × ℤ) : Reach radius s a → d ∈ directions →
      wrap radius (add a d) = b → cellsLookup s b.2 b.1 = true → Reach radius s b

/-- The constant oracle that always presents the directions in source order. -/
def oracleD : ℕ → List (ℤ × ℤ) :=
  fun _ => directions

/-- A concrete occupancy store in which every wrapped neighbor of the cell
`(1, 0)` reads open for `radius = 1` (keys are `r` then `q`). -/
def deadEndStore : Store :=
  [(-1, [(0, true), (1, true)]), (1, [(0, true), (-1, true)]), (0, [(-1, true), (0, true)])]

/-! ### Geometry lemmas -/

lemma rotation_zero (c : ℤ × ℤ) : rotation c 0 = c := rfl

lemma rotation_succ (c : ℤ × ℤ) (t : ℕ) :
    rotation c (t + 1) = anticlockwise (rotation c t) := by
  simp [rotation, List.range_succ]

lemma anticlockwise_eval (a b : ℤ) : anticlockwise (a, b) = (a + b, -a) := by
  show (-(-a - b), -a) = (a + b, -a)
  simp only [Prod.mk.injEq]
  refine ⟨?_, ?_⟩ <;> ring_nf

lemma centers_eq (R : ℤ) : centers R =
    [(R, R + 1), (2 * R + 1, -R), (R + 1, -(2 * R + 1)),
     (-R, -(R + 1)), (-(2 * R + 1), R), (-(R + 1), 2 * R + 1)] := by
  have h0 : rotation (R, R + 1) 0 = (R, R + 1) := rfl
  have h1 : rotation (R, R + 1) 1 = (2 * R + 1, -R) := by
    rw [rotation_succ, h0, anticlockwise_eval]
    simp only [Prod.mk.injEq]
    refine ⟨?_, ?_⟩ <;> ring_nf
  have h2 : rotation (R, R + 1) 2 = (R + 1, -(2 * R + 1)) := by
    rw [rotation_succ, h1, anticlockwise_eval]
    simp only [Prod.mk.injEq]
    refine ⟨?_, ?_⟩ <;> ring_nf
  have h3 : rotation (R, R + 1) 3 = (-R, -(R + 1)) := by
    rw [rotation_succ, h2, anticlockwise_eval]
    simp only [Prod.mk.injEq]
    refine ⟨?_, ?_⟩ <;> ring_nf
  have h4 : rotation (R, R + 1) 4 = (-(2 * R + 1), R) := by
    rw [rotation_succ, h3, anticlockwise_eval]
    simp only [Prod.mk.injEq]
    refine ⟨?_, ?_⟩ <;> ring_nf
  have h5 : rotation (R, R + 1) 5 = (-(R + 1), 2 * R + 1) := by
    rw [rotation_succ, h4, anticlockwise_eval]
    simp only [Prod.mk.injEq]
    refine ⟨?_, ?_⟩ <;> ring_nf
  have hr : List.range 6 = [0, 1, 2, 3, 4, 5] := rfl
  simp only [centers, hr, List.map_cons, List.map_nil, h0, h1, h2, h3, h4, h5]

lemma centers_ne_nil (R : ℤ) : centers R ≠ [] := by
  rw [centers_eq]
  simp

lemma distance_nonneg (A B : ℤ × ℤ) : 0 ≤ distance A B := by
  unfold distance
  exact le_trans (abs_nonneg _) (le_max_left _ _)

lemma norm_lt_iff (a b d : ℤ) :
    distance (a, b) (0, 0) < d ↔ |a| < d ∧ |b| < d ∧ |a + b| < d := by
  show max |a - 0| (max |b - 0| |(-a - b) - (-0 - 0)|) < d ↔ _
  have e1 : a - 0 = a := by ring
  have e2 : b - 0 = b := by ring
  have e3 : (-a - b) - (-0 - 0) = -(a + b) := by ring
  rw [e1, e2, e3, abs_neg, max_lt_iff, max_lt_iff]

lemma norm_facts (q r : ℤ) :
    |q| ≤ distance (q, r) (0, 0) ∧ |r| ≤ distance (q, r) (0, 0) ∧
      |q + r| ≤ distance (q, r) (0, 0) ∧
      (distance (q, r) (0, 0) = |q| ∨ distance (q, r) (0, 0) = |r| ∨
        distance (q, r) (0, 0) = |q + r|) := by
  have e : distance (q, r) (0, 0) = max |q| (max |r| |q + r|) := by
    show max |q - 0| (max |r - 0| |(-q - r) - (-0 - 0)|) = _
    have e1 : q - 0 = q := by ring
    have e2 : r - 0 = r := by ring
    have e3 : (-q - r) - (-0 - 0) = -(q + r) := by ring
    rw [e1, e2, e3, abs_neg]
  rw [e]
  refine ⟨le_max_left _ _, le_trans (le_max_left _ _) (le_max_right _ _),
    le_trans (le_max_right _ _) (le_max_right _ _), ?_⟩
  rcases max_choice |q| (max |r| |q + r|) with h | h
  · exact Or.inl h
  · rcases max_choice |r| |q + r| with h2 | h2
    · exact Or.inr (Or.inl (h.trans h2))
    · exact Or.inr (Or.inr (h.trans h2))

lemma distance_sub (a b : ℤ) (k : ℤ × ℤ) :
    distance (a, b) k = distance (a - k.1, b - k.2) (0, 0) := by
  show max |a - k.1| (max |b - k.2| |(-a - b) - (-k.1 - k.2)|) =
    max |(a - k.1) - 0| (max |(b - k.2) - 0| |(-(a - k.1) - (b - k.2)) - (-0 - 0)|)
  have e1 : (a - k.1) - 0 = a - k.1 := by ring
  have e2 : (b - k.2) - 0 = b - k.2 := by ring
  have e3 : (-(a - k.1) - (b - k.2)) - (-0 - 0) = (-a - b) - (-k.1 - k.2) := by ring
  rw [e1, e2, e3]

/-- Outside the region there is always a region center whose subtraction
strictly decreases the distance to the origin. -/
lemma exists_center_lt (R q r : ℤ) (h0 : 0 ≤ R) (h1 : R < distance (q, r) (0, 0)) :
    ∃ k ∈ centers R, distance (q - k.1, r - k.2) (0, 0) < distance (q, r) (0, 0) := by
  obtain ⟨f1, f2, f3, f4⟩ := norm_facts q r
  simp only [Int.abs_eq_natAbs] at f1 f2 f3 f4
  rw [centers_eq]
  rcases le_or_lt 0 q with hq | hq
  · rcases le_or_lt 0 r with hr | hr
    · rcases eq_or_lt_of_le hr with hr0 | hr1
      · refine ⟨(2 * R + 1, -R), by simp, (norm_lt_iff _ _ _).mpr ?_⟩
        refine ⟨?_, ?_, ?_⟩ <;> (simp only [Int.abs_eq_natAbs]; omega)
      · refine ⟨(R, R + 1), by simp, (norm_lt_iff _ _ _).mpr ?_⟩
        refine ⟨?_, ?_, ?_⟩ <;> (simp only [Int.abs_eq_natAbs]; omega)
    · rcases le_or_lt 0 (q + r) with hqr | hqr
      · rcases eq_or_lt_of_le hqr with hqr0 | hqr1
        · refine ⟨(R + 1, -(2 * R + 1)), by simp, (norm_lt_iff _ _ _).mpr ?_⟩
          refine ⟨?_, ?_, ?_⟩ <;> (simp only [Int.abs_eq_natAbs]; omega)
        · refine ⟨(2 * R + 1, -R), by simp, (norm_lt_iff _ _ _).mpr ?_⟩
          refine ⟨?_, ?_, ?_⟩ <;> (simp only [Int.abs_eq_natAbs]; omega)
      · rcases eq_or_lt_of_le hq with hq0 | hq1
        · refine ⟨(-R, -(R + 1)), by simp, (norm_lt_iff _ _ _).mpr ?_⟩
          refine ⟨?_, ?_, ?_⟩ <;> (simp only [Int.abs_eq_natAbs]; omega)
        · refine ⟨(R + 1, -(2 * R + 1)), by simp, (norm_lt_iff _ _ _).mpr ?_⟩
          refine ⟨?_, ?_, ?_⟩ <;> (simp only [Int.abs_eq_natAbs]; omega)
  · rcases le_or_lt 0 r with hr | hr
    · rcases le_or_lt 0 (q + r) with hqr | hqr
      · refine ⟨(-(R + 1), 2 * R + 1), by simp, (norm_lt_iff _ _ _).mpr ?_⟩
        refine ⟨?_, ?_, ?_⟩ <;> (simp only [Int.abs_eq_natAbs]; omega)
      · refine ⟨(-(2 * R + 1), R), by simp, (norm_lt_iff _ _ _).mpr ?_⟩
        refine ⟨?_, ?_, ?_⟩ <;> (simp only [Int.abs_eq_natAbs]; omega)
    · refine ⟨(-R, -(R + 1)), by simp, (norm_lt_iff _ _ _).mpr ?_⟩
      refine ⟨?_, ?_, ?_⟩ <;> (simp only [Int.abs_eq_natAbs]; omega)

/-! ### Selection helper lemmas -/

lemma argmaxGo_spec (l : List ℤ) : ∀ (i j : ℕ) (m : ℤ),
    ∃ j2 n, argmaxGo l i (some j, some m) = (some j2, some n) ∧ m ≤ n ∧
      ((j2 = j ∧ n = m) ∨ ∃ t, l.get? t = some n ∧ j2 = i + t) ∧
      ∀ x ∈ l, x ≤ n := by
  induction l with
  | nil =>
    intro i j m
    exact ⟨j, m, rfl, le_refl m, Or.inl ⟨rfl, rfl⟩, by simp⟩
  | cons x rest ih =>
    intro i j m
    show ∃ j2 n,
      argmaxGo rest (i + 1) (if jsGt x (some m) then (some i, some x) else (some j, some m)) =
        (some j2, some n) ∧ _
    by_cases hmx : m < x
    · rw [if_pos (by simp [jsGt, hmx])]
      obtain ⟨j2, n, heq, hmn, hpos, hall⟩ := ih (i + 1) i x
      refine ⟨j2, n, heq, le_of_lt (lt_of_lt_of_le hmx hmn), ?_, ?_⟩
      · rcases hpos with ⟨hj, hn⟩ | ⟨t, ht, hj⟩
        · exact Or.inr ⟨0, by simp [hn], by omega⟩
        · exact Or.inr ⟨t + 1, by simpa using ht, by omega⟩
      · intro y hy
        rcases List.mem_cons.mp hy with hy | hy
        · omega
        · exact hall y hy
    · rw [if_neg (by simp [jsGt, hmx])]
      obtain ⟨j2, n, heq, hmn, hpos, hall⟩ := ih (i + 1) j m
      refine ⟨j2, n, heq, hmn, ?_, ?_⟩
      · rcases hpos with ⟨hj, hn⟩ | ⟨t, ht, hj⟩
        · exact Or.inl ⟨hj, hn⟩
        · exact Or.inr ⟨t + 1, by simpa using ht, by omega⟩
      · intro y hy
        rcases List.mem_cons.mp hy with hy | hy
        · omega
        · exact hall y hy

lemma argmax_spec (x : ℤ) (xs : List ℤ) :
    ∃ j n, argmax (x :: xs) = (some j, some n) ∧ (x :: xs).get? j = some n ∧
      ∀ y ∈ x :: xs, y ≤ n := by
  have hstep : argmax (x :: xs) = argmaxGo xs 1 (some 0, some x) := by
    show argmaxGo xs (0 + 1) (if jsGt x none then (some 0, some x) else (none, none)) = _
    rw [if_pos (by simp [jsGt])]
  obtain ⟨j2, n, heq, hmn, hpos, hall⟩ := argmaxGo_spec xs 1 0 x
  refine ⟨j2, n, hstep.trans heq, ?_, ?_⟩
  · rcases hpos with ⟨hj, hn⟩ | ⟨t, ht, hj⟩
    · rw [hj, hn]
      rfl
    · rw [hj]
      have : 1 + t = t + 1 := by omega
      rw [this]
      simpa using ht
  · intro y hy
    rcases List.mem_cons.mp hy with hy | hy
    · omega
    · exact hall y hy

lemma max_by_spec {α : Type} (l : List α) (key : α → ℤ) (hne : l ≠ []) :
    ∃ a, max_by l key = some a ∧ a ∈ l ∧ ∀ b ∈ l, key b ≤ key a := by
  cases l with
  | nil => exact absurd rfl hne
  | cons x xs =>
    obtain ⟨j, n, heq, hget, hall⟩ := argmax_spec (key x) (xs.map key)
    have hmap : (x :: xs).map key = key x :: xs.map key := rfl
    have h1 : max_by (x :: xs) key = (x :: xs).get? j := by
      unfold max_by
      rw [hmap, heq]
    have h2 : ((x :: xs).map key).get? j = some n := by rw [hmap]; exact hget
    rw [List.get?_map] at h2
    obtain ⟨a, ha, hka⟩ := Option.map_eq_some'.mp h2
    refine ⟨a, h1.trans ha, List.get?_mem ha, ?_⟩
    intro b hb
    have : key b ∈ (x :: xs).map key := List.mem_map_of_mem key hb
    rw [hmap] at this
    rw [hka]
    exact hall _ this

lemma min_by_spec {α : Type} (l : List α) (key : α → ℤ) (hne : l ≠ []) :
    ∃ a, min_by l key = some a ∧ a ∈ l ∧ ∀ b ∈ l, key a ≤ key b := by
  obtain ⟨a, heq, hmem, hall⟩ := max_by_spec l (fun x => -(key x)) hne
  exact ⟨a, heq, hmem, fun b hb => by have := hall b hb; omega⟩

/-! ### Soundness of `wrap` -/

lemma wrapFuel_succ (radius : ℤ) (fuel : ℕ) (c : ℤ × ℤ) :
    wrapFuel radius (fuel + 1) c =
      if distance c (0, 0) ≤ radius then some c
      else
        match min_by (centers radius) (distance c) with
        | none => none
        | some k => wrapFuel radius fuel (c.1 - k.1, c.2 - k.2) := rfl

lemma min_by_center_lt (radius cq cr : ℤ) (h0 : 0 ≤ radius)
    (h1 : radius < distance (cq, cr) (0, 0)) :
    ∃ k, min_by (centers radius) (distance (cq, cr)) = some k ∧
      distance (cq - k.1, cr - k.2) (0, 0) < distance (cq, cr) (0, 0) := by
  obtain ⟨k, hkeq, hkmem, hkmin⟩ := min_by_spec (centers radius) (distance (cq, cr))
    (centers_ne_nil radius)
  obtain ⟨k2, hk2mem, hk2lt⟩ := exists_center_lt radius cq cr h0 h1
  refine ⟨k, hkeq, ?_⟩
  calc distance (cq - k.1, cr - k.2) (0, 0)
      = distance (cq, cr) k := (distance_sub cq cr k).symm
    _ ≤ distance (cq, cr) k2 := hkmin k2 hk2mem
    _ = distance (cq - k2.1, cr - k2.2) (0, 0) := distance_sub cq cr k2
    _ < distance (cq, cr) (0, 0) := hk2lt

lemma wrapFuel_sound (radius : ℤ) (h0 : 0 ≤ radius) :
    ∀ (n : ℕ) (c : ℤ × ℤ), distance c (0, 0) < n →
      ∃ x, wrapFuel radius n c = some x ∧ distance x (0, 0) ≤ radius := by
  intro n
  induction n with
  | zero =>
    intro c hc
    have := distance_nonneg c (0, 0)
    omega
  | succ n ih =>
    rintro ⟨cq, cr⟩ hc
    by_cases hin : distance (cq, cr) (0, 0) ≤ radius
    · exact ⟨(cq, cr), by rw [wrapFuel_succ, if_pos hin], hin⟩
    · push_neg at hin
      obtain ⟨k, hkeq, hdec⟩ := min_by_center_lt radius cq cr h0 hin
      obtain ⟨x, hx, hxle⟩ := ih (cq - k.1, cr - k.2) (by push_cast at hc ⊢; omega)
      refine ⟨x, ?_, hxle⟩
      rw [wrapFuel_succ, if_neg (by omega), hkeq]
      exact hx

lemma wrap_le (radius : ℤ) (c : ℤ × ℤ) (h0 : 0 ≤ radius) :
    distance (wrap radius c) (0, 0) ≤ radius := by
  have hnn := distance_nonneg c (0, 0)
  obtain ⟨x, hx, hxle⟩ := wrapFuel_sound radius h0 ((distance c (0, 0)).toNat + 1) c
    (by push_cast; omega)
  rw [wrap, hx]
  exact hxle

lemma wrap_id (radius : ℤ) (c : ℤ × ℤ) (h : distance c (0, 0) ≤ radius) :
    wrap radius c = c := by
  rw [wrap, wrapFuel_succ, if_pos h]
  rfl

/-! ### Occupancy store lemmas -/

lemma alookup_cons {α : Type} (k : ℤ) (v : α) (rest : List (ℤ × α)) (q : ℤ) :
    alookup ((k, v) :: rest) q = if k = q then some v else alookup rest q := rfl

lemma alookup_append_single_eq {α : Type} (l : List (ℤ × α)) (k : ℤ) (v : α)
    (h : alookup l k = none) : alookup (l ++ [(k, v)]) k = some v := by
  induction l with
  | nil => rw [List.nil_append, alookup_cons, if_pos rfl]
  | cons p rest ih =>
    obtain ⟨k2, v2⟩ := p
    rw [alookup_cons] at h
    rw [List.cons_append, alookup_cons]
    by_cases hk : k2 = k
    · rw [if_pos hk] at h
      exact absurd h (by simp)
    · rw [if_neg hk] at h
      rw [if_neg hk]
      exact ih h

lemma alookup_append_single_ne {α : Type} (l : List (ℤ × α)) (k : ℤ) (v : α) (k2 : ℤ)
    (h : k2 ≠ k) : alookup (l ++ [(k, v)]) k2 = alookup l k2 := by
  induction l with
  | nil =>
    show alookup [(k, v)] k2 = none
    rw [alookup_cons, if_neg (fun hh => h hh.symm)]
    rfl
  | cons p rest ih =>
    obtain ⟨k3, v3⟩ := p
    rw [List.cons_append, alookup_cons, alookup_cons, ih]

lemma jsSet_lookup_eq {α : Type} (l : List (ℤ × α)) (k : ℤ) (v : α) :
    alookup (jsSet l k v) k = some v := by
  induction l with
  | nil =>
    show alookup [(k, v)] k = some v
    rw [alookup_cons, if_pos rfl]
  | cons p rest ih =>
    obtain ⟨k2, v2⟩ := p
    show alookup (if k2 = k then (k, v) :: rest else (k2, v2) :: jsSet rest k v) k = some v
    by_cases hk : k2 = k
    · rw [if_pos hk, alookup_cons, if_pos rfl]
    · rw [if_neg hk, alookup_cons, if_neg hk, ih]

lemma jsSet_lookup_ne {α : Type} (l : List (ℤ × α)) (k : ℤ) (v : α) (k2 : ℤ)
    (h : k2 ≠ k) : alookup (jsSet l k v) k2 = alookup l k2 := by
  induction l with
  | nil =>
    show alookup [(k, v)] k2 = none
    rw [alookup_cons, if_neg (fun hh => h hh.symm)]
    rfl
  | cons p rest ih =>
    obtain ⟨k3, v3⟩ := p
    show alookup (if k3 = k then (k, v) :: rest else (k3, v3) :: jsSet rest k v) k2 =
      alookup ((k3, v3) :: rest) k2
    by_cases hk : k3 = k
    · subst hk
      rw [if_pos rfl, alookup_cons, alookup_cons,
        if_neg (fun hh => h hh.symm), if_neg (fun hh => h hh.symm)]
    · rw [if_neg hk, alookup_cons, alookup_cons, ih]

lemma dget_fst {α : Type} (dflt : α) (l : List (ℤ × α)) (k : ℤ) :
    (dget dflt l k).1 = (alookup l k).getD dflt := by
  unfold dget
  cases h : alookup l k <;> simp

lemma dget_snd_ne {α : Type} (dflt : α) (l : List (ℤ × α)) (k k2 : ℤ) (h : k2 ≠ k) :
    alookup (dget dflt l k).2 k2 = alookup l k2 := by
  unfold dget
  cases halook : alookup l k with
  | some v => rfl
  | none => exact alookup_append_single_ne _ _ _ _ h

lemma dget_snd_getD {α : Type} (dflt : α) (l : List (ℤ × α)) (k k2 : ℤ) :
    (alookup (dget dflt l k).2 k2).getD dflt = (alookup l k2).getD dflt := by
  unfold dget
  cases halook : alookup l k with
  | some v => rfl
  | none =>
    by_cases h : k2 = k
    · subst h
      rw [alookup_append_single_eq _ _ _ halook, halook]
      rfl
    · rw [alookup_append_single_ne _ _ _ _ h]

lemma cellsGet_fst (s : Store) (r q : ℤ) : (cellsGet s r q).1 = cellsLookup s r q := by
  show (dget false (dget [] s r).1 q).1 = _
  rw [dget_fst, dget_fst, cellsLookup]

lemma cellsGet_snd (s : Store) (r q r2 q2 : ℤ) :
    cellsLookup (cellsGet s r q).2 r2 q2 = cellsLookup s r2 q2 := by
  show cellsLookup (jsSet (dget [] s r).2 r (dget false (dget [] s r).1 q).2) r2 q2 = _
  unfold cellsLookup
  by_cases hr : r2 = r
  · subst hr
    rw [jsSet_lookup_eq]
    show (alookup (dget false (dget [] s r2).1 q).2 q2).getD false = _
    rw [dget_snd_getD, dget_fst]
  · rw [jsSet_lookup_ne _ _ _ _ hr, dget_snd_ne _ _ _ _ hr]

lemma cellsSet_lookup (s : Store) (r q : ℤ) (b : Bool) (r2 q2 : ℤ) :
    cellsLookup (cellsSet s r q b) r2 q2 =
      if r2 = r ∧ q2 = q then b else cellsLookup s r2 q2 := by
  show cellsLookup (jsSet (dget [] s r).2 r (jsSet (dget [] s r).1 q b)) r2 q2 = _
  unfold cellsLookup
  by_cases hr : r2 = r
  · subst hr
    rw [jsSet_lookup_eq]
    show (alookup (jsSet (dget [] s r2).1 q b) q2).getD false = _
    by_cases hq : q2 = q
    · subst hq
      rw [jsSet_lookup_eq]
      simp
    · rw [jsSet_lookup_ne _ _ _ _ hq, dget_fst]
      simp [hq]
  · rw [jsSet_lookup_ne _ _ _ _ hr, dget_snd_ne _ _ _ _ hr]
    simp [hr]

lemma lookupsEq_refl (s : Store) : lookupsEq s s :=
  fun _ _ => rfl

lemma lookupsEq_trans {s t u : Store} (h1 : lookupsEq s t) (h2 : lookupsEq t u) :
    lookupsEq s u :=
  fun r q => (h1 r q).trans (h2 r q)

lemma cellsGet_lookupsEq (s : Store) (r q : ℤ) : lookupsEq s (cellsGet s r q).2 :=
  fun r2 q2 => (cellsGet_snd s r q r2 q2).symm

/-! ### Generator lemmas -/

lemma tryDirs_nil (radius : ℤ) (at_ : ℤ × ℤ) (s : Store) :
    tryDirs radius at_ [] s = (none, s) := rfl

lemma tryDirs_cons (radius : ℤ) (at_ d : ℤ × ℤ) (rest : List (ℤ × ℤ)) (s : Store) :
    tryDirs radius at_ (d :: rest) s =
      if (cellsGet s (wrap radius (add at_ d)).2 (wrap radius (add at_ d)).1).1 = false
      then (some (wrap radius (add at_ d)),
        (cellsGet s (wrap radius (add at_ d)).2 (wrap radius (add at_ d)).1).2)
      else tryDirs radius at_ rest
        (cellsGet s (wrap radius (add at_ d)).2 (wrap radius (add at_ d)).1).2 := rfl

lemma tryDirs_none_pres (radius : ℤ) (at_ : ℤ × ℤ) :
    ∀ (dirs : List (ℤ × ℤ)) (s s2 : Store),
      tryDirs radius at_ dirs s = (none, s2) → lookupsEq s s2 := by
  intro dirs
  induction dirs with
  | nil =>
    intro s s2 h
    rw [tryDirs_nil] at h
    obtain rfl : s = s2 := congrArg Prod.snd h
    exact lookupsEq_refl s
  | cons d rest ih =>
    intro s s2 h
    rw [tryDirs_cons] at h
    by_cases hp : (cellsGet s (wrap radius (add at_ d)).2 (wrap radius (add at_ d)).1).1 = false
    · rw [if_pos hp] at h
      exact absurd (congrArg Prod.fst h) (by simp)
    · rw [if_neg hp] at h
      exact lookupsEq_trans (cellsGet_lookupsEq s _ _) (ih _ _ h)

lemma tryDirs_some_spec (radius : ℤ) (at_ : ℤ × ℤ) :
    ∀ (dirs : List (ℤ × ℤ)) (s s2 : Store) (c : ℤ × ℤ),
      tryDirs radius at_ dirs s = (some c, s2) →
      (∃ d ∈ dirs, c = wrap radius (add at_ d)) ∧
        cellsLookup s c.2 c.1 = false ∧ lookupsEq s s2 := by
  intro dirs
  induction dirs with
  | nil =>
    intro s s2 c h
    rw [tryDirs_nil] at h
    exact absurd (congrArg Prod.fst h) (by simp)
  | cons d rest ih =>
    intro s s2 c h
    rw [tryDirs_cons] at h
    by_cases hp : (cellsGet s (wrap radius (add at_ d)).2 (wrap radius (add at_ d)).1).1 = false
    · rw [if_pos hp] at h
      have hc : wrap radius (add at_ d) = c := by
        have := congrArg Prod.fst h
        simpa using this
      have hs2 : (cellsGet s (wrap radius (add at_ d)).2 (wrap radius (add at_ d)).1).2 = s2 :=
        congrArg Prod.snd h
      subst hc
      refine ⟨⟨d, List.mem_cons_self d rest, rfl⟩, ?_, ?_⟩
      · rw [← cellsGet_fst]
        exact hp
      · rw [← hs2]
        exact cellsGet_lookupsEq s _ _
    · rw [if_neg hp] at h
      obtain ⟨⟨d2, hd2, hc⟩, hlk, hpres⟩ := ih _ _ _ h
      have hpre0 : lookupsEq s (cellsGet s (wrap radius (add at_ d)).2
          (wrap radius (add at_ d)).1).2 := cellsGet_lookupsEq s _ _
      refine ⟨⟨d2, List.mem_cons_of_mem d hd2, hc⟩, ?_, lookupsEq_trans hpre0 hpres⟩
      rw [hpre0 c.2 c.1]
      exact hlk

lemma genNext_nil (radius : ℤ) (oracle : ℕ → List (ℤ × ℤ)) (at_ : ℤ × ℤ) (k : ℕ) (s : Store) :
    genNext radius oracle at_ [] k s = (none, k, s) := rfl

lemma genNext_cons (radius : ℤ) (oracle : ℕ → List (ℤ × ℤ)) (at_ top : ℤ × ℤ)
    (rest : List (ℤ × ℤ)) (k : ℕ) (s : Store) :
    genNext radius oracle at_ (top :: rest) k s =
      match tryDirs radius at_ (oracle k) s with
      | (some c, s1) => (some (c, c :: top :: rest), k + 1, s1)
      | (none, s1) => genNext radius oracle top rest (k + 1) s1 := rfl

lemma genNext_pres (radius : ℤ) (oracle : ℕ → List (ℤ × ℤ)) :
    ∀ (stack : List (ℤ × ℤ)) (at_ : ℤ × ℤ) (k : ℕ) (s : Store),
      lookupsEq s (genNext radius oracle at_ stack k s).2.2 := by
  intro stack
  induction stack with
  | nil =>
    intro at_ k s
    exact lookupsEq_refl s
  | cons top rest ih =>
    intro at_ k s
    rw [genNext_cons]
    rcases htry : tryDirs radius at_ (oracle k) s with ⟨o, s1⟩
    cases o with
    | some c =>
      show lookupsEq s s1
      exact (tryDirs_some_spec radius at_ (oracle k) s s1 c htry).2.2
    | none =>
      show lookupsEq s (genNext radius oracle top rest (k + 1) s1).2.2
      exact lookupsEq_trans (tryDirs_none_pres radius at_ (oracle k) s s1 htry) (ih top (k + 1) s1)

lemma genNext_some_spec (radius : ℤ) (oracle : ℕ → List (ℤ × ℤ)) :
    ∀ (stack : List (ℤ × ℤ)) (at_ : ℤ × ℤ) (k : ℕ) (s : Store) (c : ℤ × ℤ)
      (stk : List (ℤ × ℤ)) (k2 : ℕ) (s2 : Store),
      genNext radius oracle at_ stack k s = (some (c, stk), k2, s2) →
      (∃ a, (a = at_ ∨ a ∈ stack) ∧ ∃ j, ∃ d ∈ oracle j, c = wrap radius (add a d)) ∧
        cellsLookup s c.2 c.1 = false ∧
        ∃ rest2, stk = c :: rest2 ∧ ∀ x ∈ rest2, x = at_ ∨ x ∈ stack := by
  intro stack
  induction stack with
  | nil =>
    intro at_ k s c stk k2 s2 h
    exact absurd (congrArg Prod.fst h) (by simp [genNext_nil])
  | cons top rest ih =>
    intro at_ k s c stk k2 s2 h
    rw [genNext_cons] at h
    rcases htry : tryDirs radius at_ (oracle k) s with ⟨o, s1⟩
    rw [htry] at h
    cases o with
    | some c0 =>
      have hfst := congrArg Prod.fst h
      simp only [Prod.fst] at hfst
      have hc0 : c0 = c ∧ c0 :: top :: rest = stk := by
        have := Option.some.inj hfst
        exact ⟨congrArg Prod.fst this, congrArg Prod.snd this⟩
      obtain ⟨hc0c, hstk⟩ := hc0
      subst hc0c
      have hs1 : s1 = s2 := congrArg (fun p => p.2.2) h
      obtain ⟨⟨d, hd, hc⟩, hlk, _⟩ := tryDirs_some_spec radius at_ (oracle k) s s1 c0 htry
      refine ⟨⟨at_, Or.inl rfl, k, d, hd, hc⟩, hlk, top :: rest, hstk.symm, ?_⟩
      intro x hx
      exact Or.inr hx
    | none =>
      obtain ⟨⟨a, ha, j, d, hd, hc⟩, hlk, rest2, hstk, hrest⟩ :=
        ih top (k + 1) s1 c stk k2 s2 h
      have hpres := tryDirs_none_pres radius at_ (oracle k) s s1 htry
      refine ⟨⟨a, ?_, j, d, hd, hc⟩, ?_, rest2, hstk, ?_⟩
      · rcases ha with ha | ha
        · exact Or.inr (ha ▸ List.mem_cons_self top rest)
        · exact Or.inr (List.mem_cons_of_mem top ha)
      · rw [hpres c.2 c.1]
        exact hlk
      · intro x hx
        rcases hrest x hx with hx2 | hx2
        · exact Or.inr (hx2 ▸ List.mem_cons_self top rest)
        · exact Or.inr (List.mem_cons_of_mem top hx2)

/-! ### Reachability lemmas -/

lemma Reach_mono (radius : ℤ) {s t : Store}
    (h : ∀ r q : ℤ, cellsLookup s r q = true → cellsLookup t r q = true) :
    ∀ {c : ℤ × ℤ}, Reach radius s c → Reach radius t c := by
  intro c hr
  induction hr with
  | seed => exact Reach.seed
  | step a b d _ hd hw hb ih => exact Reach.step a b d ih hd hw (h _ _ hb)

lemma Reach_congr (radius : ℤ) {s t : Store} (h : lookupsEq s t) {c : ℤ × ℤ} :
    Reach radius s c → Reach radius t c :=
  Reach_mono radius (fun r q hh => (h r q) ▸ hh)

lemma worldLoop_eq (radius : ℤ) (oracle : ℕ → List (ℤ × ℤ)) (n : ℚ) (at_ : ℤ × ℤ)
    (stack : List (ℤ × ℤ)) (k : ℕ) (s : Store) :
    worldLoop radius oracle n at_ stack k s =
      match genNext radius oracle at_ stack k s with
      | (none, _, s1) => s1
      | (some (c, stk), k1, s1) =>
        if 0 < n then worldLoop radius oracle (n - 1) c stk k1 (cellsSet s1 c.2 c.1 true)
        else s1 := by
  rw [worldLoop]
  rcases h : genNext radius oracle at_ stack k s with ⟨o, k1, s1⟩
  cases o with
  | none => rfl
  | some p => simp

lemma worldLoop_inv (radius : ℤ) (oracle : ℕ → List (ℤ × ℤ))
    (ho : ∀ j, ∀ d ∈ oracle j, d ∈ directions) (n : ℚ) (at_ : ℤ × ℤ)
    (stack : List (ℤ × ℤ)) (k : ℕ) (s : Store) :
    (∀ x : ℤ × ℤ, cellsLookup s x.2 x.1 = true → Reach radius s x) →
    (at_ = (0, 0) ∨ cellsLookup s at_.2 at_.1 = true) →
    (∀ x ∈ stack, x = (0, 0) ∨ cellsLookup s x.2 x.1 = true) →
    ∀ x : ℤ × ℤ, cellsLookup (worldLoop radius oracle n at_ stack k s) x.2 x.1 = true →
      Reach radius (worldLoop radius oracle n at_ stack k s) x := by
  induction n, at_, stack, k, s using worldLoop.induct radius oracle with
  | case1 n at_ stack k s k1 s1 hg =>
    intro hreach _hat _hstack x hx
    have hres : worldLoop radius oracle n at_ stack k s = s1 := by
      rw [worldLoop_eq, hg]
    rw [hres] at hx ⊢
    have hpres : lookupsEq s s1 := by
      have hp := genNext_pres radius oracle stack at_ k s
      rw [hg] at hp
      exact hp
    have hsx : cellsLookup s x.2 x.1 = true := by
      rw [hpres x.2 x.1]
      exact hx
    exact Reach_congr radius hpres (hreach x hsx)
  | case2 n at_ stack k s c stk k1 s1 hg hn ih =>
    intro hreach hat hstack x hx
    have hres : worldLoop radius oracle n at_ stack k s =
        worldLoop radius oracle (n - 1) c stk k1 (cellsSet s1 c.2 c.1 true) := by
      rw [worldLoop_eq, hg]
      show (if 0 < n then worldLoop radius oracle (n - 1) c stk k1
        (cellsSet s1 c.2 c.1 true) else s1) = _
      rw [if_pos hn]
    rw [hres] at hx ⊢
    obtain ⟨⟨a, ha, j, d, hd, hc⟩, _hlk, rest2, hstk, hrest⟩ :=
      genNext_some_spec radius oracle stack at_ k s c stk k1 s1 hg
    have hpres : lookupsEq s s1 := by
      have hp := genNext_pres radius oracle stack at_ k s
      rw [hg] at hp
      exact hp
    have hset : ∀ r2 q2 : ℤ, cellsLookup (cellsSet s1 c.2 c.1 true) r2 q2 =
        if r2 = c.2 ∧ q2 = c.1 then true else cellsLookup s1 r2 q2 :=
      fun r2 q2 => cellsSet_lookup s1 c.2 c.1 true r2 q2
    have hmono : ∀ r2 q2 : ℤ, cellsLookup s r2 q2 = true →
        cellsLookup (cellsSet s1 c.2 c.1 true) r2 q2 = true := by
      intro r2 q2 h
      rw [hset]
      by_cases hcase : r2 = c.2 ∧ q2 = c.1
      · rw [if_pos hcase]
      · rw [if_neg hcase, ← hpres r2 q2]
        exact h
    have hlkc : cellsLookup (cellsSet s1 c.2 c.1 true) c.2 c.1 = true := by
      rw [hset, if_pos ⟨rfl, rfl⟩]
    have hreach_a : Reach radius (cellsSet s1 c.2 c.1 true) a := by
      rcases ha with ha | ha
      · rcases hat with h0 | h0
        · rw [ha, h0]
          exact Reach.seed
        · rw [ha]
          exact Reach_mono radius hmono (hreach at_ h0)
      · rcases hstack a ha with h0 | h0
        · rw [h0]
          exact Reach.seed
        · exact Reach_mono radius hmono (hreach a h0)
    have hreach_c : Reach radius (cellsSet s1 c.2 c.1 true) c :=
      Reach.step a c d hreach_a (ho j d hd) hc.symm hlkc
    have hinv1 : ∀ y : ℤ × ℤ, cellsLookup (cellsSet s1 c.2 c.1 true) y.2 y.1 = true →
        Reach radius (cellsSet s1 c.2 c.1 true) y := by
      intro y hy
      rw [hset y.2 y.1] at hy
      by_cases hcase : y.2 = c.2 ∧ y.1 = c.1
      · have hyc : y = c := by
          calc y = (y.1, y.2) := rfl
            _ = (c.1, c.2) := by rw [hcase.2, hcase.1]
            _ = c := rfl
        rw [hyc]
        exact hreach_c
      · rw [if_neg hcase] at hy
        have hsy : cellsLookup s y.2 y.1 = true := by
          rw [hpres y.2 y.1]
          exact hy
        exact Reach_mono radius hmono (hreach y hsy)
    have hinv2 : c = (0, 0) ∨ cellsLookup (cellsSet s1 c.2 c.1 true) c.2 c.1 = true :=
      Or.inr hlkc
    have hinv3 : ∀ y ∈ stk, y = (0, 0) ∨
        cellsLookup (cellsSet s1 c.2 c.1 true) y.2 y.1 = true := by
      intro y hy
      rw [hstk] at hy
      rcases List.mem_cons.mp hy with hy | hy
      · right
        rw [hy]
        exact hlkc
      · rcases hrest y hy with hy2 | hy2
        · rcases hat with h0 | h0
          · exact Or.inl (hy2.trans h0)
          · right
            rw [hy2]
            exact hmono _ _ h0
        · rcases hstack y hy2 with h0 | h0
          · exact Or.inl h0
          · exact Or.inr (hmono _ _ h0)
    exact ih hinv1 hinv2 hinv3 x hx
  | case3 n at_ stack k s c stk k1 s1 hg hn =>
    intro hreach _hat _hstack x hx
    have hres : worldLoop radius oracle n at_ stack k s = s1 := by
      rw [worldLoop_eq, hg]
      show (if 0 < n then worldLoop radius oracle (n - 1) c stk k1
        (cellsSet s1 c.2 c.1 true) else s1) = _
      rw [if_neg hn]
    rw [hres] at hx ⊢
    have hpres : lookupsEq s s1 := by
      have hp := genNext_pres radius oracle stack at_ k s
      rw [hg] at hp
      exact hp
    have hsx : cellsLookup s x.2 x.1 = true := by
      rw [hpres x.2 x.1]
      exact hx
    exact Reach_congr radius hpres (hreach x hsx)

/-! ### The radius-zero world -/

lemma wrap_zero_dir : ∀ d ∈ directions, wrap 0 (add (0, 0) d) = (0, 0) := by
  decide

lemma tryDirs_zero_first (d : ℤ × ℤ) (ds : List (ℤ × ℤ)) (hd : d ∈ directions) :
    tryDirs 0 (0, 0) (d :: ds) [] = (some (0, 0), [(0, [(0, false)])]) := by
  rw [tryDirs_cons, wrap_zero_dir d hd]
  have hget : cellsGet ([] : Store) ((0 : ℤ), (0 : ℤ)).2 ((0 : ℤ), (0 : ℤ)).1 =
      (false, [(0, [(0, false)])]) := rfl
  rw [hget, if_pos rfl]

lemma tryDirs_zero_occupied :
    ∀ dirs : List (ℤ × ℤ), (∀ d ∈ dirs, d ∈ directions) →
      tryDirs 0 (0, 0) dirs [(0, [(0, true)])] = (none, [(0, [(0, true)])]) := by
  intro dirs
  induction dirs with
  | nil =>
    intro _
    rfl
  | cons d rest ih =>
    intro h
    rw [tryDirs_cons, wrap_zero_dir d (h d (List.mem_cons_self d rest))]
    have hget : cellsGet [((0 : ℤ), [((0 : ℤ), true)])] ((0 : ℤ), (0 : ℤ)).2
        ((0 : ℤ), (0 : ℤ)).1 = (true, [(0, [(0, true)])]) := rfl
    rw [hget, if_neg (by simp)]
    exact ih (fun d2 hd2 => h d2 (List.mem_cons_of_mem d hd2))

/-- Running `generateWorld` at radius zero, with any sequence of shuffles,
ends with the single open entry `cells[0][0] = true`. -/
lemma generateWorld_zero (oracle : ℕ → List (ℤ × ℤ))
    (ho : ∀ k, (oracle k).Perm directions) :
    generateWorld 0 oracle = [(0, [(0, true)])] := by
  have hmem : ∀ k, ∀ d ∈ oracle k, d ∈ directions := fun k d hd => (ho k).mem_iff.mp hd
  obtain ⟨d0, ds, h0⟩ : ∃ d0 ds, oracle 0 = d0 :: ds := by
    cases hcase : oracle 0 with
    | nil =>
      have hlen := (ho 0).length_eq
      rw [hcase] at hlen
      simp [directions] at hlen
    | cons d ds => exact ⟨d, ds, rfl⟩
  have hd0 : d0 ∈ directions := hmem 0 d0 (by rw [h0]; exact List.mem_cons_self _ _)
  have hstep1 : genNext 0 oracle (0, 0) [(0, 0)] 0 [] =
      (some ((0, 0), [(0, 0), (0, 0)]), 1, [(0, [(0, false)])]) := by
    rw [genNext_cons, h0, tryDirs_zero_first d0 ds hd0]
  have hstep2 : genNext 0 oracle (0, 0) [(0, 0), (0, 0)] 1 [(0, [(0, true)])] =
      (none, 3, [(0, [(0, true)])]) := by
    rw [genNext_cons, tryDirs_zero_occupied (oracle 1) (hmem 1)]
    show genNext 0 oracle (0, 0) [(0, 0)] (1 + 1) [(0, [(0, true)])] = _
    rw [genNext_cons, tryDirs_zero_occupied (oracle 2) (hmem 2)]
    show genNext 0 oracle (0, 0) [] (1 + 1 + 1) [(0, [(0, true)])] = _
    rw [genNext_nil]
  rw [generateWorld, worldLoop_eq, hstep1]
  show (if 0 < 2 / 5 * ((area 0 : ℤ) : ℚ) then
      worldLoop 0 oracle (2 / 5 * ((area 0 : ℤ) : ℚ) - 1) (0, 0) [(0, 0), (0, 0)] 1
        (cellsSet [(0, [(0, false)])] ((0 : ℤ), (0 : ℤ)).2 ((0 : ℤ), (0 : ℤ)).1 true)
    else [(0, [(0, false)])]) = _
  rw [if_pos (by norm_num [area])]
  have hset : cellsSet [((0 : ℤ), [((0 : ℤ), false)])] ((0 : ℤ), (0 : ℤ)).2
      ((0 : ℤ), (0 : ℤ)).1 true = [(0, [(0, true)])] := rfl
  rw [hset, worldLoop_eq, hstep2]

/-! ### Divergence of `wrap` below radius zero -/

lemma wrapFuel_neg_one : ∀ n : ℕ, wrapFuel (-1) n (0, 0) = none ∧ wrapFuel (-1) n (1, 0) = none := by
  intro n
  induction n with
  | zero => exact ⟨rfl, rfl⟩
  | succ n ih =>
    constructor
    · rw [wrapFuel_succ, if_neg (by decide)]
      have hmin : min_by (centers (-1)) (distance ((0 : ℤ), (0 : ℤ))) = some (-1, 0) := by
        decide
      rw [hmin]
      show wrapFuel (-1) n (1, 0) = none
      exact ih.2
    · rw [wrapFuel_succ, if_neg (by decide)]
      have hmin : min_by (centers (-1)) (distance ((1 : ℤ), (0 : ℤ))) = some (1, 0) := by
        decide
      rw [hmin]
      show wrapFuel (-1) n (0, 0) = none
      exact ih.1

/-! ### One while-iteration of the generator -/

lemma genIter_yield (radius : ℤ) (dirs : List (ℤ × ℤ)) (at_ top : ℤ × ℤ)
    (rest : List (ℤ × ℤ)) (s s2 : Store) (c : ℤ × ℤ)
    (h : tryDirs radius at_ dirs s = (some c, s2)) :
    genIter radius dirs at_ top rest s = (IterResult.yield c (c :: top :: rest), s2) := by
  unfold genIter
  rw [h]

lemma genIter_pop (radius : ℤ) (dirs : List (ℤ × ℤ)) (at_ top : ℤ × ℤ)
    (rest : List (ℤ × ℤ)) (s s2 : Store)
    (h : tryDirs radius at_ dirs s = (none, s2)) :
    genIter radius dirs at_ top rest s = (IterResult.pop top rest, s2) := by
  unfold genIter
  rw [h]

/-- `genNext` is the iteration of `genIter` until a yield or an empty stack,
matching the generator's `while` loop. -/
lemma genNext_iter (radius : ℤ) (oracle : ℕ → List (ℤ × ℤ)) (at_ top : ℤ × ℤ)
    (rest : List (ℤ × ℤ)) (k : ℕ) (s : Store) :
    genNext radius oracle at_ (top :: rest) k s =
      match genIter radius (oracle k) at_ top rest s with
      | (IterResult.yield c stk, s1) => (some (c, stk), k + 1, s1)
      | (IterResult.pop a stk, s1) => genNext radius oracle a stk (k + 1) s1 := by
  rcases h : tryDirs radius at_ (oracle k) s with ⟨o, s1⟩
  cases o with
  | some c =>
    rw [genNext_cons, h, genIter_yield radius (oracle k) at_ top rest s s1 c h]
  | none =>
    rw [genNext_cons, h, genIter_pop radius (oracle k) at_ top rest s s1 h]

/-! ### The rounding correction of `pixel_to_axial` -/

lemma toInt32_eq_self (x : ℤ) (h1 : -(2 ^ 31) ≤ x) (h2 : x < 2 ^ 31) : toInt32 x = x := by
  unfold toInt32
  omega

lemma pixel_to_axial_round_spec (q_ r_ : ℚ) :
    (|(toInt32 (round q_) : ℚ) - q_| > |(toInt32 (round r_) : ℚ) - r_| ∧
        |(toInt32 (round q_) : ℚ) - q_| > |(toInt32 (round (-q_ - r_)) : ℚ) - (-q_ - r_)| →
      pixel_to_axial_round q_ r_ =
        (-(toInt32 (round r_)) - toInt32 (round (-q_ - r_)), toInt32 (round r_))) ∧
    (|(toInt32 (round r_) : ℚ) - r_| > |(toInt32 (round q_) : ℚ) - q_| ∧
        |(toInt32 (round r_) : ℚ) - r_| > |(toInt32 (round (-q_ - r_)) : ℚ) - (-q_ - r_)| →
      pixel_to_axial_round q_ r_ =
        (toInt32 (round q_), -(toInt32 (round q_)) - toInt32 (round (-q_ - r_)))) ∧
    (|(toInt32 (round (-q_ - r_)) : ℚ) - (-q_ - r_)| > |(toInt32 (round q_) : ℚ) - q_| ∧
        |(toInt32 (round (-q_ - r_)) : ℚ) - (-q_ - r_)| > |(toInt32 (round r_) : ℚ) - r_| →
      pixel_to_axial_round q_ r_ = (toInt32 (round q_), toInt32 (round r_))) := by
  have hbody : pixel_to_axial_round q_ r_ =
      if |(toInt32 (round q_) : ℚ) - q_| > |(toInt32 (round r_) : ℚ) - r_| ∧
          |(toInt32 (round q_) : ℚ) - q_| > |(toInt32 (round (-q_ - r_)) : ℚ) - (-q_ - r_)| then
        (-(toInt32 (round r_)) - toInt32 (round (-q_ - r_)), toInt32 (round r_))
      else if |(toInt32 (round r_) : ℚ) - r_| > |(toInt32 (round q_) : ℚ) - q_| ∧
          |(toInt32 (round r_) : ℚ) - r_| > |(toInt32 (round (-q_ - r_)) : ℚ) - (-q_ - r_)| then
        (toInt32 (round q_), -(toInt32 (round q_)) - toInt32 (round (-q_ - r_)))
      else (toInt32 (round q_), toInt32 (round r_)) := rfl
  refine ⟨?_, ?_, ?_⟩
  · intro h
    rw [hbody, if_pos h]
  · intro h
    rw [hbody, if_neg (fun hq => (lt_asymm h.1) hq.1), if_pos h]
  · intro h
    rw [hbody, if_neg (fun hq => (lt_asymm h.1) hq.2),
      if_neg (fun hq => (lt_asymm h.2) hq.2)]

/-! ## Claim theorems -/

/-- C1: for every axial coordinate `c` and every radius `≥ 0`, the result of
`wrap(radius)(c)` lies inside the region:
`distance(wrap(radius)(c), origin) ≤ radius`. -/
theorem c1_wrap_into_region (radius : ℤ) (c : ℤ × ℤ) (h0 : 0 ≤ radius) :
    distance (wrap radius c) (0, 0) ≤ radius :=
  wrap_le radius c h0

/-- Witness for C1 at `radius = 1`, `c = (5, 3)`. -/
theorem c1_wrap_into_region_witness :
    (0 : ℤ) ≤ 1 ∧ distance (wrap 1 (5, 3)) (0, 0) ≤ 1 :=
  ⟨by decide, c1_wrap_into_region 1 (5, 3) (by decide)⟩

/-- C2: after running World Assembly (`generateWorld`, i.e. `worldLoop` seeded
at the origin) for any radius `≥ 0` and any step budget `n`, every cell that
reads open in the resulting occupancy map is reachable from the seed `(0, 0)`
through open cells, each step being one wrapped direction step from the seed
or a previously opened cell. -/
theorem c2_walk_connected (radius : ℤ) (oracle : ℕ → List (ℤ × ℤ)) (n : ℚ) (c : ℤ × ℤ)
    (h0 : 0 ≤ radius) (ho : ∀ k, (oracle k).Perm directions) :
    (cellsLookup (worldLoop radius oracle n (0, 0) [(0, 0)] 0 []) c.2 c.1 = true →
      Reach radius (worldLoop radius oracle n (0, 0) [(0, 0)] 0 []) c) ∧
    (cellsLookup (generateWorld radius oracle) c.2 c.1 = true →
      Reach radius (generateWorld radius oracle) c) := by
  have hmem : ∀ j, ∀ d ∈ oracle j, d ∈ directions := fun j d hd => (ho j).mem_iff.mp hd
  have hempty : ∀ x : ℤ × ℤ, cellsLookup ([] : Store) x.2 x.1 = true →
      Reach radius ([] : Store) x := by
    intro x hx
    exact absurd hx (by simp [cellsLookup, alookup])
  have hmain : ∀ n2 : ℚ,
      cellsLookup (worldLoop radius oracle n2 (0, 0) [(0, 0)] 0 []) c.2 c.1 = true →
        Reach radius (worldLoop radius oracle n2 (0, 0) [(0, 0)] 0 []) c := by
    intro n2
    exact worldLoop_inv radius oracle hmem n2 (0, 0) [(0, 0)] 0 [] hempty (Or.inl rfl)
      (fun x hx2 => Or.inl (by simpa using hx2)) c
  exact ⟨hmain n, hmain (2 / 5 * ((area radius : ℤ) : ℚ))⟩

/-- Witness for C2 at `radius = 0` with the source-order shuffle oracle. -/
theorem c2_walk_connected_witness :
    (0 : ℤ) ≤ 0 ∧ cellsLookup (generateWorld 0 oracleD) 0 0 = true ∧
      Reach 0 (generateWorld 0 oracleD) (0, 0) := by
  have hperm : ∀ k, (oracleD k).Perm directions := fun _ => List.Perm.refl _
  have hgen := generateWorld_zero oracleD hperm
  refine ⟨le_refl 0, by rw [hgen]; decide, ?_⟩
  exact (c2_walk_connected 0 oracleD (2 / 5 * ((area 0 : ℤ) : ℚ)) (0, 0) (le_refl 0) hperm).2
    (by rw [hgen]; decide)

/-- C3 counterexample: at radius `0` the occupancy map does not end empty —
the budget `0.4 * area(0) = 0.4` is not floored, `take` still pulls while the
decremented counter is positive, so one cell (the wrapped origin) is emitted
and marked open. -/
theorem c3_budget_counterexample :
    generateWorld 0 oracleD = [(0, [(0, true)])] ∧ generateWorld 0 oracleD ≠ [] := by
  have hgen := generateWorld_zero oracleD (fun _ => List.Perm.refl _)
  exact ⟨hgen, by rw [hgen]; decide⟩

/-- C3 (amended): the step budget is `0.4 * area(radius)`, taken unfloored by
`take`, which emits while the decremented counter is still positive; for
`radius = 0` the budget `0.4` lets exactly one cell (the wrapped origin)
through, and the occupancy map ends with the single open entry `(0, 0)`,
whatever direction orders the shuffles produce. -/
theorem c3_budget_amended (oracle : ℕ → List (ℤ × ℤ))
    (ho : ∀ k, (oracle k).Perm directions) :
    generateWorld 0 oracle = [(0, [(0, true)])] :=
  generateWorld_zero oracle ho

/-- Witness for the amended C3 with the source-order shuffle oracle. -/
theorem c3_budget_amended_witness :
    (∀ k, (oracleD k).Perm directions) ∧ generateWorld 0 oracleD = [(0, [(0, true)])] :=
  ⟨fun _ => List.Perm.refl _, c3_budget_amended oracleD (fun _ => List.Perm.refl _)⟩

/-- C4 counterexample: one pull of the generator from the empty caller-owned
occupancy map leaves the entry `cells[0][0] = false` in it — written by the
generator's own occupancy read through the auto-vivifying `defaultdict` — even
though the consumer has written nothing. -/
theorem c4_generator_writes_counterexample :
    (genNext 0 oracleD (0, 0) [(0, 0)] 0 []).2.2 = [(0, [(0, false)])] ∧
      [((0 : ℤ), [((0 : ℤ), false)])] ≠ ([] : Store) :=
  ⟨by decide, by decide⟩

/-- C4 (amended): the generator performs no semantic writes — after a pull,
every cell of the occupancy map still reads exactly the same flag as before —
but its reads do auto-create missing entries with the default `false` in the
backing store, so the stored entries are the consumer's writes plus
generator-created defaults. -/
theorem c4_generator_preserves_reads (radius : ℤ) (oracle : ℕ → List (ℤ × ℤ))
    (at_ : ℤ × ℤ) (stack : List (ℤ × ℤ)) (k : ℕ) (s : Store) :
    lookupsEq s (genNext radius oracle at_ stack k s).2.2 :=
  genNext_pres radius oracle stack at_ k s

/-- C5: for every `radius ≥ 0` and coordinate strictly outside the region, the
`min_by` selection of the nearest region center succeeds and subtracting it
strictly decreases the distance to the origin, so the recursion inside `wrap`
terminates (fuel `distance + 1` suffices) for every such input. -/
theorem c5_wrap_fold_decreases (radius : ℤ) (c : ℤ × ℤ) (h0 : 0 ≤ radius)
    (h1 : radius < distance c (0, 0)) :
    (∃ k, min_by (centers radius) (distance c) = some k ∧
      distance (c.1 - k.1, c.2 - k.2) (0, 0) < distance c (0, 0)) ∧
    ∃ x, wrapFuel radius ((distance c (0, 0)).toNat + 1) c = some x := by
  obtain ⟨cq, cr⟩ := c
  constructor
  · exact min_by_center_lt radius cq cr h0 h1
  · obtain ⟨x, hx, _⟩ := wrapFuel_sound radius h0 ((distance (cq, cr) (0, 0)).toNat + 1)
      (cq, cr) (by have := distance_nonneg ((cq : ℤ), (cr : ℤ)) (0, 0); push_cast; omega)
    exact ⟨x, hx⟩

/-- Witness for C5 at `radius = 0`, `c = (2, 0)`. -/
theorem c5_wrap_fold_decreases_witness :
    (0 : ℤ) ≤ 0 ∧ (0 : ℤ) < distance (2, 0) (0, 0) ∧
      ((∃ k, min_by (centers 0) (distance ((2 : ℤ), (0 : ℤ))) = some k ∧
          distance ((2 : ℤ) - k.1, (0 : ℤ) - k.2) (0, 0) < distance (2, 0) (0, 0)) ∧
        ∃ x, wrapFuel 0 ((distance ((2 : ℤ), (0 : ℤ)) (0, 0)).toNat + 1) (2, 0) = some x) :=
  ⟨by decide, by decide, c5_wrap_fold_decreases 0 (2, 0) (by decide) (by decide)⟩

/-- C6 counterexample: invalid configuration is not rejected at the call
boundary — with `radius = -1` the Boundary Folder proceeds into the fold (the
first iteration computes the six centers and recurses from the origin to
`(1, 0)`) and never produces a result, and `axial_to_pixel` simply computes
its linear transform for the invalid size `-1` instead of failing. -/
theorem c6_no_validation_counterexample :
    wrapFuel (-1) 2 (0, 0) = wrapFuel (-1) 1 (1, 0) ∧ wrapFuel (-1) 2 (0, 0) = none ∧
      axial_to_pixel (7 / 4) (1, 0) (-1) = (-(3 / 2), -(7 / 8)) := by
  refine ⟨by decide, by decide, ?_⟩
  norm_num [axial_to_pixel]

/-- C6 (amended): no validation happens at the call boundary — the Boundary
Folder called with `radius = -1` recurses forever instead of failing fast: at
the origin the fold cycles between `(0, 0)` and `(1, 0)` and no amount of fuel
produces a result. -/
theorem c6_wrap_negative_radius_diverges :
    ∀ n : ℕ, wrapFuel (-1) n (0, 0) = none ∧ wrapFuel (-1) n (1, 0) = none :=
  wrapFuel_neg_one

/-- C7 counterexample: `pixel_to_axial` does not round each fractional cube
coordinate to the nearest integer — every rounding passes through `| 0`
(ToInt32 truncation). At the pixel below (`size = 1`), the fractional cube
coordinates are `(2^31 + 2/5, 9/20, -2^31 - 17/20)`, so the `r` coordinate has
the strictly largest nearest-integer rounding error and the claimed rule would
return the `r`-corrected nearest roundings `(2^31, 1)`; instead the truncation
wraps the rounded `q` and `s` to the opposite ends of the int32 range, the
wrapped errors send execution into the first branch, and the program returns
`(-(2^31 - 1), 0)`. -/
theorem c7_pixel_to_axial_counterexample :
    pixel_to_axial (7 / 4) (3 * 2 ^ 30 + 3 / 5, 12 / 7 * (2 ^ 30 + 13 / 20)) 1 =
      (-(2 ^ 31 - 1), 0) ∧
    (|(round ((9 : ℚ) / 20) : ℚ) - 9 / 20| >
        |(round ((2 : ℚ) ^ 31 + 2 / 5) : ℚ) - ((2 : ℚ) ^ 31 + 2 / 5)| ∧
      |(round ((9 : ℚ) / 20) : ℚ) - 9 / 20| >
        |(round (-((2 : ℚ) ^ 31 + 2 / 5) - 9 / 20) : ℚ) -
          (-((2 : ℚ) ^ 31 + 2 / 5) - 9 / 20)|) ∧
    ((-(2 ^ 31 - 1) : ℤ), (0 : ℤ)) ≠
      (round ((2 : ℚ) ^ 31 + 2 / 5), -(round ((2 : ℚ) ^ 31 + 2 / 5)) -
        round (-((2 : ℚ) ^ 31 + 2 / 5) - 9 / 20)) := by
  have hq1 : round ((2 : ℚ) ^ 31 + 2 / 5) = 2 ^ 31 := by norm_num [round_eq]
  have hq2 : round ((9 : ℚ) / 20) = 0 := by norm_num [round_eq]
  have hq3 : round (-((2 : ℚ) ^ 31 + 2 / 5) - 9 / 20) = -(2 ^ 31) - 1 := by
    norm_num [round_eq]
  have ht1 : toInt32 (2 ^ 31) = -(2 ^ 31) := by decide
  have ht2 : toInt32 0 = 0 := by decide
  have ht3 : toInt32 (-(2 ^ 31) - 1) = 2 ^ 31 - 1 := by decide
  refine ⟨?_, ?_, ?_⟩
  · have hq_ : ((2 / 3 * ((3 : ℚ) * 2 ^ 30 + 3 / 5) +
        0 * ((12 : ℚ) / 7 * (2 ^ 30 + 13 / 20))) / 1) = (2 : ℚ) ^ 31 + 2 / 5 := by
      norm_num
    have hr_ : ((-(1 / 3) * ((3 : ℚ) * 2 ^ 30 + 3 / 5) +
        (7 / 4) / 3 * ((12 : ℚ) / 7 * (2 ^ 30 + 13 / 20))) / 1) = (9 : ℚ) / 20 := by
      norm_num
    have hdef : pixel_to_axial (7 / 4) (3 * 2 ^ 30 + 3 / 5, 12 / 7 * (2 ^ 30 + 13 / 20)) 1 =
        pixel_to_axial_round ((2 : ℚ) ^ 31 + 2 / 5) ((9 : ℚ) / 20) := by
      show pixel_to_axial_round _ _ = _
      rw [hq_, hr_]
    have hcond : |(toInt32 (round ((2 : ℚ) ^ 31 + 2 / 5)) : ℚ) - ((2 : ℚ) ^ 31 + 2 / 5)| >
        |(toInt32 (round ((9 : ℚ) / 20)) : ℚ) - 9 / 20| ∧
        |(toInt32 (round ((2 : ℚ) ^ 31 + 2 / 5)) : ℚ) - ((2 : ℚ) ^ 31 + 2 / 5)| >
          |(toInt32 (round (-((2 : ℚ) ^ 31 + 2 / 5) - 9 / 20)) : ℚ) -
            (-((2 : ℚ) ^ 31 + 2 / 5) - 9 / 20)| := by
      rw [hq1, hq2, hq3, ht1, ht2, ht3]
      have e1 : |((-(2 ^ 31) : ℤ) : ℚ) - ((2 : ℚ) ^ 31 + 2 / 5)| = 2 ^ 32 + 2 / 5 := by
        rw [abs_of_nonpos (by push_cast; norm_num)]
        push_cast
        norm_num
      have e2 : |((0 : ℤ) : ℚ) - 9 / 20| = 9 / 20 := by
        rw [abs_of_nonpos (by push_cast; norm_num)]
        push_cast
        norm_num
      have e3 : |((2 ^ 31 - 1 : ℤ) : ℚ) - (-((2 : ℚ) ^ 31 + 2 / 5) - 9 / 20)| =
          2 ^ 32 - 3 / 20 := by
        rw [abs_of_nonneg (by push_cast; norm_num)]
        push_cast
        norm_num
      rw [e1, e2, e3]
      norm_num
    obtain ⟨h1, _, _⟩ := pixel_to_axial_round_spec ((2 : ℚ) ^ 31 + 2 / 5) ((9 : ℚ) / 20)
    rw [hdef, h1 hcond, hq2, hq3, ht2, ht3]
    norm_num
  · rw [hq1, hq2, hq3]
    have e1 : |((2 ^ 31 : ℤ) : ℚ) - ((2 : ℚ) ^ 31 + 2 / 5)| = 2 / 5 := by
      rw [abs_of_nonpos (by push_cast; norm_num)]
      push_cast
      norm_num
    have e2 : |((0 : ℤ) : ℚ) - 9 / 20| = 9 / 20 := by
      rw [abs_of_nonpos (by push_cast; norm_num)]
      push_cast
      norm_num
    have e3 : |((-(2 ^ 31) - 1 : ℤ) : ℚ) - (-((2 : ℚ) ^ 31 + 2 / 5) - 9 / 20)| = 3 / 20 := by
      rw [abs_of_nonpos (by push_cast; norm_num)]
      push_cast
      norm_num
    rw [e1, e2, e3]
    norm_num
  · rw [hq1, hq3]
    decide

/-- C7 (amended): `pixel_to_axial` computes each rounded cube coordinate as
`Math.round(x) | 0` — half-up rounding followed by ToInt32 truncation — and
corrects the coordinate whose truncated rounding has the strictly largest
error by recomputing it from the other two; the returned axial pair's cube
completion sums to zero exactly for every input pixel and `size > 0`, rounding
ties fall into the final branch deterministically instead of surfacing as an
error, and whenever all three rounded coordinates lie in the int32 range the
truncation is the identity, so the original nearest-rounding rule applies
there. -/
theorem c7_pixel_to_axial_rounding (s3 : ℚ) (p : ℚ × ℚ) (size : ℚ) (q_ r_ s_ : ℚ)
    (hs : 0 < size)
    (hq : q_ = (2 / 3 * p.1 + 0 * p.2) / size)
    (hr : r_ = (-(1 / 3) * p.1 + s3 / 3 * p.2) / size)
    (hsd : s_ = -q_ - r_) :
    ((pixel_to_axial s3 p size).1 + (pixel_to_axial s3 p size).2 +
        (-(pixel_to_axial s3 p size).1 - (pixel_to_axial s3 p size).2) = 0) ∧
    (|(toInt32 (round q_) : ℚ) - q_| > |(toInt32 (round r_) : ℚ) - r_| ∧
        |(toInt32 (round q_) : ℚ) - q_| > |(toInt32 (round s_) : ℚ) - s_| →
      pixel_to_axial s3 p size =
        (-(toInt32 (round r_)) - toInt32 (round s_), toInt32 (round r_))) ∧
    (|(toInt32 (round r_) : ℚ) - r_| > |(toInt32 (round q_) : ℚ) - q_| ∧
        |(toInt32 (round r_) : ℚ) - r_| > |(toInt32 (round s_) : ℚ) - s_| →
      pixel_to_axial s3 p size =
        (toInt32 (round q_), -(toInt32 (round q_)) - toInt32 (round s_))) ∧
    (|(toInt32 (round s_) : ℚ) - s_| > |(toInt32 (round q_) : ℚ) - q_| ∧
        |(toInt32 (round s_) : ℚ) - s_| > |(toInt32 (round r_) : ℚ) - r_| →
      pixel_to_axial s3 p size = (toInt32 (round q_), toInt32 (round r_))) ∧
    ((-(2 ^ 31) ≤ round q_ ∧ round q_ < 2 ^ 31) ∧ (-(2 ^ 31) ≤ round r_ ∧ round r_ < 2 ^ 31) ∧
        (-(2 ^ 31) ≤ round s_ ∧ round s_ < 2 ^ 31) →
      toInt32 (round q_) = round q_ ∧ toInt32 (round r_) = round r_ ∧
        toInt32 (round s_) = round s_) := by
  subst hq
  subst hr
  subst hsd
  have hdef : pixel_to_axial s3 p size = pixel_to_axial_round
      ((2 / 3 * p.1 + 0 * p.2) / size) ((-(1 / 3) * p.1 + s3 / 3 * p.2) / size) := rfl
  obtain ⟨h1, h2, h3⟩ := pixel_to_axial_round_spec ((2 / 3 * p.1 + 0 * p.2) / size)
    ((-(1 / 3) * p.1 + s3 / 3 * p.2) / size)
  refine ⟨by ring, ?_, ?_, ?_, ?_⟩
  · rw [hdef]
    exact h1
  · rw [hdef]
    exact h2
  · rw [hdef]
    exact h3
  · intro hrange
    exact ⟨toInt32_eq_self _ hrange.1.1 hrange.1.2,
      toInt32_eq_self _ hrange.2.1.1 hrange.2.1.2,
      toInt32_eq_self _ hrange.2.2.1 hrange.2.2.2⟩

/-- Witness for the amended C7: a pixel whose fractional cube coordinates are
`(0.7, 0.2, -0.9)`, where the `q` coordinate has the strictly largest rounding
error (the roundings are in int32 range, so truncation is the identity) and is
recomputed from the other two. -/
theorem c7_pixel_to_axial_rounding_witness :
    (0 : ℚ) < 1 ∧ pixel_to_axial (7 / 4) (21 / 20, 33 / 35) 1 = (1, 0) := by
  constructor
  · norm_num
  · have h := (c7_pixel_to_axial_rounding (7 / 4) (21 / 20, 33 / 35) 1
      (7 / 10) (1 / 5) (-(7 / 10) - 1 / 5) (by norm_num) (by norm_num) (by norm_num)
      rfl).2.1
    have hq1 : round ((7 : ℚ) / 10) = 1 := by norm_num [round_eq]
    have hq2 : round ((1 : ℚ) / 5) = 0 := by norm_num [round_eq]
    have hq3 : round (-((7 : ℚ) / 10) - 1 / 5) = -1 := by norm_num [round_eq]
    have ht1 : toInt32 1 = 1 := by decide
    have ht2 : toInt32 0 = 0 := by decide
    have ht3 : toInt32 (-1) = -1 := by decide
    have hcond : |(toInt32 (round ((7 : ℚ) / 10)) : ℚ) - 7 / 10| >
        |(toInt32 (round ((1 : ℚ) / 5)) : ℚ) - 1 / 5| ∧
        |(toInt32 (round ((7 : ℚ) / 10)) : ℚ) - 7 / 10| >
          |(toInt32 (round (-((7 : ℚ) / 10) - 1 / 5)) : ℚ) - (-(7 / 10) - 1 / 5)| := by
      rw [hq1, hq2, hq3, ht1, ht2, ht3]
      have e1 : |((1 : ℤ) : ℚ) - 7 / 10| = 3 / 10 := by
        rw [abs_of_nonneg (by push_cast; norm_num)]
        push_cast
        norm_num
      have e2 : |((0 : ℤ) : ℚ) - 1 / 5| = 1 / 5 := by
        rw [abs_of_nonpos (by push_cast; norm_num)]
        push_cast
        norm_num
      have e3 : |((-1 : ℤ) : ℚ) - (-(7 / 10) - 1 / 5)| = 1 / 10 := by
        rw [abs_of_nonpos (by push_cast; norm_num)]
        push_cast
        norm_num
      rw [e1, e2, e3]
      norm_num
    rw [h hcond, hq2, hq3, ht2, ht3]
    norm_num

/-- C8: `wrap` is idempotent on its own output and the identity on the region:
for every axial `c` and radius `≥ 0`, `wrap radius (wrap radius c) = wrap radius c`,
and `wrap radius c = c` whenever `distance c origin ≤ radius`. -/
theorem c8_wrap_idempotent (radius : ℤ) (c : ℤ × ℤ) (h0 : 0 ≤ radius) :
    wrap radius (wrap radius c) = wrap radius c ∧
      (distance c (0, 0) ≤ radius → wrap radius c = c) :=
  ⟨wrap_id radius _ (wrap_le radius c h0), fun h => wrap_id radius c h⟩

/-- Witness for C8 at `radius = 1`, `c = (5, -2)`. -/
theorem c8_wrap_idempotent_witness :
    (0 : ℤ) ≤ 1 ∧ wrap 1 (wrap 1 (5, -2)) = wrap 1 (5, -2) ∧
      (distance (5, -2) (0, 0) ≤ 1 → wrap 1 (5, -2) = (5, -2)) :=
  ⟨by decide, (c8_wrap_idempotent 1 (5, -2) (by decide)).1,
    (c8_wrap_idempotent 1 (5, -2) (by decide)).2⟩

/-- C9: the axial and offset conversions are mutually inverse on all integer
pairs, and the worked example holds: `axial_to_odd_q (2, -1) = (2, 0)` and
`odd_q_to_axial (2, 0) = (2, -1)`. -/
theorem c9_offset_axial_roundtrip :
    (∀ q r : ℤ, odd_q_to_axial (axial_to_odd_q (q, r)) = (q, r)) ∧
      axial_to_odd_q (2, -1) = (2, 0) ∧ odd_q_to_axial (2, 0) = (2, -1) := by
  refine ⟨?_, by decide, by decide⟩
  intro q r
  show (q, r + jsShiftRight1 q - jsShiftRight1 q) = (q, r)
  have hr : r + jsShiftRight1 q - jsShiftRight1 q = r := by ring
  rw [hr]

/-- C10 counterexample: at a dead end the popped value is the current cell
itself, not the cell below it — from the state `at = (1, 0)`,
`stack = [(1, 0), (0, 0)]` (top first) with every wrapped neighbor of `(1, 0)`
open, the iteration resumes the search from `(1, 0)`, not from `(0, 0)`. -/
theorem c10_backtrack_counterexample :
    genIter 1 directions (1, 0) (1, 0) [(0, 0)] deadEndStore =
      (IterResult.pop (1, 0) [(0, 0)], deadEndStore) ∧ ((1, 0) : ℤ × ℤ) ≠ (0, 0) :=
  ⟨by decide, by decide⟩

/-- C10 (amended): when none of the shuffled directions yields an unopened
wrapped neighbor, the iteration pops the stack and the search resumes from the
popped top of the stack — which is the current cell whenever the stack top
holds the current cell, as it does right after a push — and the sequence ends
exactly when the stack becomes empty. -/
theorem c10_backtrack_pop_semantics :
    (∀ (radius : ℤ) (dirs : List (ℤ × ℤ)) (at_ top : ℤ × ℤ) (rest : List (ℤ × ℤ))
        (s s2 : Store), tryDirs radius at_ dirs s = (none, s2) →
      genIter radius dirs at_ top rest s = (IterResult.pop top rest, s2)) ∧
    (∀ (radius : ℤ) (oracle : ℕ → List (ℤ × ℤ)) (at_ : ℤ × ℤ) (k : ℕ) (s : Store),
      genNext radius oracle at_ [] k s = (none, k, s)) :=
  ⟨fun radius dirs at_ top rest s s2 h => genIter_pop radius dirs at_ top rest s s2 h,
    fun radius oracle at_ k s => genNext_nil radius oracle at_ k s⟩

/-- Witness for the amended C10 at the concrete dead-end state. -/
theorem c10_backtrack_pop_semantics_witness :
    tryDirs 1 (1, 0) directions deadEndStore = (none, deadEndStore) ∧
      genIter 1 directions (1, 0) (1, 0) [(0, 0)] deadEndStore =
        (IterResult.pop (1, 0) [(0, 0)], deadEndStore) :=
  ⟨by decide, c10_backtrack_pop_semantics.1 1 directions (1, 0) (1, 0) [(0, 0)]
    deadEndStore deadEndStore (by decide)⟩

end N9
